import Mathlib

/-!
Verification of `src/util.rs` (a small distributional-semantics pipeline:
tokenisation, co-occurrence counting, PPMI reweighting, cosine ranking).

Shallow embedding conventions:
* Rust `usize` is modelled as `ℕ` with explicit wrapping `% 2^64` at the
  operations the source performs on `usize` values (`+`, `*` inside sums and
  products); 64-bit is the width of `usize` on the platforms the crate targets.
* `f32` arithmetic is idealised as exact real/rational arithmetic, except for
  the division-by-zero behaviour (`0/0 = NaN`, `x/0 = ±inf` for `x ≠ 0`),
  which the `ppmi` embedding models explicitly because it is observable there.
* `HashMap<String, WordId>` / `HashMap<WordId, String>` are modelled as
  association lists built by the same insertion sequence the source performs;
  the source only ever inserts fresh keys, so `len` is the list length and
  `map[k]` is `List.lookup`.
* Rust strings are modelled as `List Char`; text is ASCII in all uses.
* A Rust function that can panic (index out of bounds, `Option::unwrap`) is
  embedded with an `Option` result, `none` standing for the panic.
-/

/-- Modulus of 64-bit `usize` arithmetic. -/
def W64 : ℕ := 2 ^ 64

/-- Wrapping `usize` addition (release-mode Rust `+` on `usize`). -/
def usizeAdd (a b : ℕ) : ℕ := (a + b) % W64

/-- Wrapping `usize` multiplication (release-mode Rust `*` on `usize`). -/
def usizeMul (a b : ℕ) : ℕ := (a * b) % W64

/-- The constant `std::f32::EPSILON` = 2⁻²³ (exact). -/
def EPSILON32 : ℚ := 1 / 2 ^ 23

/-- A token: Rust strings are modelled as lists of characters. -/
abbrev Word := List Char

/-- One character of `str::to_ascii_lowercase`: ASCII upper-case letters are
shifted into lower case, every other character is unchanged. -/
def toAsciiLower (c : Char) : Char :=
  if 'A' ≤ c ∧ c ≤ 'Z' then Char.ofNat (c.toNat + 32) else c

/-- `str::replace('.', " .")`: every `'.'` becomes the two characters `" ."`. -/
def replaceDot : List Char → List Char
  | [] => []
  | c :: cs => if c = '.' then ' ' :: '.' :: replaceDot cs else c :: replaceDot cs

/-- `str::split(' ')`: splits at every single space character and keeps the
(possibly empty) fragments between them; the empty string yields `[""]`. -/
def splitSpace : List Char → List Word
  | [] => [[]]
  | c :: cs =>
    if c = ' ' then [] :: splitSpace cs
    else
      match splitSpace cs with
      | [] => [[c]]
      | w :: ws => (c :: w) :: ws

/-- One iteration of the `for word in words` loop of `prerocess`: state is
`(word_to_id, id_to_word, corpus)`.  A fresh word gets id `word_to_id.len()`
and is recorded in both maps; the word's id is appended to the corpus. -/
def prerocessStep (st : List (Word × ℕ) × List (ℕ × Word) × List ℕ) (w : Word) :
    List (Word × ℕ) × List (ℕ × Word) × List ℕ :=
  match List.lookup w st.1 with
  | some i => (st.1, st.2.1, st.2.2 ++ [i])
  | none =>
    (st.1 ++ [(w, st.1.length)], st.2.1 ++ [(st.1.length, w)], st.2.2 ++ [st.1.length])

/-- `prerocess` of `src/util.rs:16`: lower-case the text, isolate `'.'` with a
space, split on `' '`, then build `(corpus, word_to_id, id_to_word)`. -/
def prerocess (text : List Char) : List ℕ × List (Word × ℕ) × List (ℕ × Word) :=
  let words := splitSpace (replaceDot (text.map toAsciiLower))
  let st := words.foldl prerocessStep ([], [], [])
  (st.2.2, st.1, st.2.1)

/-- `corpus.iter().max().map_or(0, |w| w.0 + 1)` of `create_co_matrix`. -/
def vocabSize (corpus : List ℕ) : ℕ :=
  match corpus.max? with
  | none => 0
  | some m => m + 1

/-- The sequence of `m[a][b] += 1` increments performed by the two nested
loops of `create_co_matrix` (`src/util.rs:39-52`), as `(a, b)` pairs in scan
order: for every position `idx` and offset `i ∈ 1..=window_size`, a left
neighbour increment when `i ≤ idx` and a right neighbour increment when
`idx + i < corpus.len()`. -/
def coEvents (corpus : List ℕ) (windowSize : ℕ) : List (ℕ × ℕ) :=
  (List.range corpus.length).flatMap fun idx =>
    (List.range' 1 windowSize).flatMap fun i =>
      (if i ≤ idx then [(corpus.getD idx 0, corpus.getD (idx - i) 0)] else []) ++
      (if idx + i < corpus.length then [(corpus.getD idx 0, corpus.getD (idx + i) 0)] else [])

/-- `m[a][b] += 1` on a vector-of-vectors matrix. -/
def bump (m : List (List ℕ)) (a b : ℕ) : List (List ℕ) :=
  m.set a ((m.getD a []).set b ((m.getD a []).getD b 0 + 1))

/-- `create_co_matrix` of `src/util.rs:36`: a `vocab_size × vocab_size` zero
matrix, bumped once per scan event.  (All indices used by the source are in
range, so the function is total.) -/
def create_co_matrix (corpus : List ℕ) (windowSize : ℕ) : List (List ℕ) :=
  (coEvents corpus windowSize).foldl (fun m e => bump m e.1 e.2)
    (List.replicate (vocabSize corpus) (List.replicate (vocabSize corpus) 0))

/-- Matrix entry read `m[i][j]` (0 outside the stored rectangle). -/
def entry (m : List (List ℕ)) (i j : ℕ) : ℕ := (m.getD i []).getD j 0

/-- `cos_similarity` of `src/util.rs:56`, with `f32` idealised as `ℝ`.  The
squares `x * x` are `usize` products in the source and wrap before the cast
to `f32`; the norms get `EPSILON` added before the divisions. -/
noncomputable def cos_similarity (x y : List ℕ) : ℝ :=
  let x0 := Real.sqrt ((x.map fun a => ((usizeMul a a : ℕ) : ℝ)).sum) + (EPSILON32 : ℝ)
  let y0 := Real.sqrt ((y.map fun a => ((usizeMul a a : ℕ) : ℝ)).sum) + (EPSILON32 : ℝ)
  ((x.zip y).map fun p => ((p.1 : ℝ) / x0) * ((p.2 : ℝ) / y0)).sum

/-- Stable insertion of an element into a score-ascending list: the new
element goes after every element of score ≤ its own. -/
noncomputable def insertAsc (x : Word × ℝ) : List (Word × ℝ) → List (Word × ℝ)
  | [] => [x]
  | y :: ys => if x.2 < y.2 then x :: y :: ys else y :: insertAsc x ys

/-- Model of `similarity.sort_by(|a, b| a.1.partial_cmp(&b.1).unwrap())`
(`src/util.rs:92`).  Rust's `sort_by` is a stable sort; on real-valued
(NaN-free) scores any stable sort by the same key computes the same list,
and `sortAsc` is the stable insertion sort. -/
noncomputable def sortAsc (l : List (Word × ℝ)) : List (Word × ℝ) :=
  l.foldl (fun acc x => insertAsc x acc) []

/-- The `map` body of `most_similar` (`src/util.rs:86-91`) over the filtered
enumerated rows: each row index is looked up in `id_to_word` (the source
indexes the map and would panic on a missing id, hence `Option`). -/
noncomputable def simList (itw : List (ℕ × Word)) (qv : List ℕ) :
    List (ℕ × List ℕ) → Option (List (Word × ℝ))
  | [] => some []
  | (i, row) :: rest =>
    match List.lookup i itw, simList itw qv rest with
    | some w, some l => some ((w, cos_similarity row qv) :: l)
    | _, _ => none

/-- `most_similar` of `src/util.rs:65`: unknown query returns `some []`; a
query id outside the matrix would panic at `word_matrix.0[query_id.0]`
(modelled `none`); otherwise every non-query row is scored, sorted
ascending by score with a stable sort, and reversed. -/
noncomputable def most_similar (query : Word) (wordToId : List (Word × ℕ))
    (idToWord : List (ℕ × Word)) (wordMatrix : List (List ℕ)) :
    Option (List (Word × ℝ)) :=
  match List.lookup query wordToId with
  | none => some []
  | some qid =>
    match wordMatrix[qid]? with
    | none => none
    | some queryVec =>
      let pairs := wordMatrix.enum.filter fun t => qid != t.1
      (simList idToWord queryVec pairs).map fun l => (sortAsc l).reverse

/-- `t.iter().sum::<usize>()` over one row (wrapping `usize` addition). -/
def rowSumU (r : List ℕ) : ℕ := r.foldl usizeAdd 0

/-- `let n = c.0.iter().map(|t| t.iter().sum::<usize>()).sum::<usize>()`
(`src/util.rs:103`). -/
def totalN (c : List (List ℕ)) : ℕ := (c.map rowSumU).foldl usizeAdd 0

/-- The marginal vector `s` of `ppmi` (`src/util.rs:104-109`): `s` has length
`c.0[0].len()` and `s[i]` accumulates `c.0[j][i]` over all rows `j`. -/
def sVec (c : List (List ℕ)) : List ℕ :=
  (List.range (c.headD []).length).map fun i =>
    (c.map fun r => r.getD i 0).foldl usizeAdd 0

/-- The numerator product `c.0[i][j] * n` of `src/util.rs:113`: a wrapping
`usize` multiplication performed before the cast to `f32`. -/
def pmiNum (c : List (List ℕ)) (i j : ℕ) : ℕ := usizeMul (entry c i j) (totalN c)

/-- The denominator product `s[j] * s[i]` of `src/util.rs:113`: likewise a
wrapping `usize` multiplication before the cast to `f32`. -/
def pmiDen (c : List (List ℕ)) (i j : ℕ) : ℕ :=
  usizeMul ((sVec c).getD j 0) ((sVec c).getD i 0)

/-- The `f32` value an output cell of `ppmi` holds.  Cells are written only
when `pmi > 0.0` (`src/util.rs:114`), and `pmi = log2(num/den + EPSILON)`;
so a cell is `0.0` (constructor `zero`), or `log2 a` for the finite argument
`a = num/den + EPSILON > 1` (constructor `plog a`), or `+∞` (constructor
`pinf`).  NaN is never stored: `NaN > 0.0` is false, so the NaN branch
leaves the cell at `0.0`. -/
inductive PVal where
  | zero : PVal
  | plog : ℚ → PVal
  | pinf : PVal
  deriving DecidableEq

/-- One cell of `ppmi` (`src/util.rs:113-116`), following `f32` semantics of
the source expression `(((num as f32) / (den as f32)) + EPSILON).log2()`:
* `den = 0`, `num = 0`: `0/0 = NaN`, `NaN + ε = NaN`, `log2 NaN = NaN`,
  `NaN > 0.0` is false — the cell keeps its initial `0.0`;
* `den = 0`, `num ≠ 0`: `num/0 = +∞`, `log2 (+∞) = +∞ > 0.0` — the cell is
  written `+∞`;
* `den ≠ 0`: the argument `a = num/den + ε` is a positive finite value and
  `log2 a > 0.0` iff `1 < a` (base-2 log is increasing with `log2 1 = 0`). -/
def pmiCell (num den : ℕ) : PVal :=
  if den = 0 then
    if num = 0 then PVal.zero else PVal.pinf
  else
    if 1 < (num : ℚ) / (den : ℚ) + EPSILON32 then
      PVal.plog ((num : ℚ) / (den : ℚ) + EPSILON32)
    else PVal.zero

/-- `ppmi` of `src/util.rs:100`.  The source panics (index out of bounds)
when `c.0` is empty (`c.0[0]` at line 101), when some row is shorter than
row 0 (`c.0[j][i]` at line 107), or when there are more rows than columns
(`s[i]` at line 113 with `i` ranging over rows but `s.len() = c.0[0].len()`);
these panics are modelled by `none`. -/
def ppmi (c : List (List ℕ)) : Option (List (List PVal)) :=
  if c ≠ [] ∧ (∀ r ∈ c, (c.headD []).length ≤ r.length) ∧
      c.length ≤ (c.headD []).length then
    some ((List.range c.length).map fun i =>
      (List.range (c.headD []).length).map fun j => pmiCell (pmiNum c i j) (pmiDen c i j))
  else none

/-- Output-matrix entry read (default `0.0`, i.e. `PVal.zero`). -/
def pentry (p : List (List PVal)) (i j : ℕ) : PVal := (p.getD i []).getD j PVal.zero

/-- Mathematical (non-wrapping) total mass `N`: the sum of all entries. -/
def totalNExact (c : List (List ℕ)) : ℕ := (c.map fun r => r.sum).sum

/-- Mathematical (non-wrapping) column sum `s[i]`. -/
def colSumExact (c : List (List ℕ)) (i : ℕ) : ℕ := (c.map fun r => r.getD i 0).sum

/-- Interpretation of an output cell as an extended real (`pinf` is `+∞`). -/
noncomputable def PVal.toEReal : PVal → EReal
  | PVal.zero => 0
  | PVal.plog a => ((Real.logb 2 (a : ℝ) : ℝ) : EReal)
  | PVal.pinf => ⊤

/-- Modelled from the spec: the PPMI cell formula of §4.3 read in exact
arithmetic, `pmi = log2(m[i][j]·N / (s[i]·s[j]) + ε)` written when positive
and `0` otherwise, with `N` the total mass and `s` the column sums (no
wrapping).  Used to compare `ppmi` against the spec's formula. -/
noncomputable def ppmiSpecCell (c : List (List ℕ)) (i j : ℕ) : ℝ :=
  let v := Real.logb 2 (((entry c i j : ℝ) * (totalNExact c : ℝ)) /
    ((colSumExact c i : ℝ) * (colSumExact c j : ℝ)) + (EPSILON32 : ℝ))
  if 0 < v then v else 0

/-- The position of a word in the id-ordered vocabulary list (its original
vocabulary id); first match wins. -/
def vocabIdx : List Word → Word → ℕ
  | [], _ => 0
  | u :: us, w => if u = w then 0 else vocabIdx us w + 1

/-- The ranking order claimed by the spec: descending score, ties broken by
ascending vocabulary id, ids being positions in the id-ordered vocabulary
list `ws`. -/
def rankedAsc (ws : List Word) (a b : Word × ℝ) : Prop :=
  b.2 < a.2 ∨ (a.2 = b.2 ∧ vocabIdx ws a.1 < vocabIdx ws b.1)

/-- The ranking order the code implements: descending score, ties broken by
descending vocabulary id. -/
def rankedDesc (ws : List Word) (a b : Word × ℝ) : Prop :=
  b.2 < a.2 ∨ (a.2 = b.2 ∧ vocabIdx ws b.1 < vocabIdx ws a.1)

/-! Basic facts about the wrapped `usize` product. -/

theorem usizeMul_eq_iff (a b : ℕ) : usizeMul a b = a * b ↔ a * b < W64 := by
  constructor
  · intro h
    by_contra hlt
    push_neg at hlt
    have h1 : usizeMul a b < W64 := Nat.mod_lt _ (by norm_num [W64])
    omega
  · intro h
    exact Nat.mod_eq_of_lt h

/-- C5 (amended): the numerator product `m[i][j] * N` of `ppmi` is a 64-bit
wrapping `usize` multiplication; it equals the mathematical product exactly
when that product is below `2^64`, and wraps modulo `2^64` otherwise. -/
theorem pmiNum_eq_exact_iff_no_overflow (c : List (List ℕ)) (i j : ℕ) :
    pmiNum c i j = entry c i j * totalN c ↔ entry c i j * totalN c < W64 :=
  usizeMul_eq_iff _ _

/-- C5 (counterexample): on the one-cell matrix `[[2^40]]` the product
`m[0][0] * N = 2^80` wraps to `0`, so it is not computed in a range wide
enough to avoid silent wrap-around. -/
theorem pmiNum_overflow_cex :
    pmiNum [[2 ^ 40]] 0 0 = 0 ∧
    pmiNum [[2 ^ 40]] 0 0 ≠ entry [[2 ^ 40]] 0 0 * totalN [[2 ^ 40]] := by
  decide

/-- C4 (counterexample): `create_co_matrix` on the empty corpus does not fail:
it silently returns the degenerate `0 × 0` matrix. -/
theorem create_co_matrix_empty_cex : create_co_matrix [] 1 = ([] : List (List ℕ)) := rfl

/-- C4 (amended): on an empty corpus `create_co_matrix` silently returns the
degenerate `0 × 0` matrix for every window size (no error), and `ppmi` on
that empty matrix panics on an out-of-bounds index (`c.0[0]`, modelled as
`none`) rather than reporting an explicit error. -/
theorem empty_corpus_behavior (windowSize : ℕ) :
    create_co_matrix [] windowSize = ([] : List (List ℕ)) ∧
    ppmi ([] : List (List ℕ)) = none := by
  refine ⟨rfl, ?_⟩
  simp [ppmi]

/-- C2 (counterexample): on the empty input text `prerocess` does not return
an empty corpus and empty mappings: the empty string becomes a token with
id 0, the corpus is `[0]`, and both mappings hold the empty word. -/
theorem prerocess_empty_cex :
    prerocess [] = ([0], [([], 0)], [(0, [])]) ∧ (prerocess []).1 ≠ [] := by
  decide

/-- C2 (amended): `prerocess` does not skip empty tokens: splitting on a
single space keeps the empty fragments produced by consecutive delimiters
(and by the empty input), and those empty tokens receive vocabulary ids.
The empty text gives corpus `[0]` with the empty word as the only vocabulary
entry, and `"a  b"` gives the three tokens `a`, `""`, `b` with ids 0, 1, 2. -/
theorem prerocess_keeps_empty_tokens :
    prerocess [] = ([0], [([], 0)], [(0, [])]) ∧
    (prerocess "a  b".data).1 = [0, 1, 2] ∧
    List.lookup [] (prerocess "a  b".data).2.1 = some 1 := by
  decide

/-- C8: on `"You say goodbye and I say hello."`, `prerocess` yields the
corpus `[0, 1, 2, 3, 4, 1, 5, 6]` with the vocabulary you/say/goodbye/and/
i/hello/`.` in id order, and the window-1 co-occurrence row of `"goodbye"`
(id 2) is `[0, 1, 0, 1, 0, 0, 0]`. -/
theorem prerocess_co_matrix_concrete :
    (prerocess "You say goodbye and I say hello.".data).1 = [0, 1, 2, 3, 4, 1, 5, 6] ∧
    (prerocess "You say goodbye and I say hello.".data).2.2 =
      [(0, "you".data), (1, "say".data), (2, "goodbye".data), (3, "and".data),
       (4, "i".data), (5, "hello".data), (6, ".".data)] ∧
    List.lookup "goodbye".data (prerocess "You say goodbye and I say hello.".data).2.1 =
      some 2 ∧
    (create_co_matrix (prerocess "You say goodbye and I say hello.".data).1 1).getD 2 [] =
      [0, 1, 0, 1, 0, 0, 0] := by
  decide

/-- C10: with window size 0 both neighbour loops are empty (`1..1`), so
`create_co_matrix` accepts the call and returns the all-zero
`vocab_size × vocab_size` matrix. -/
theorem create_co_matrix_window_zero (corpus : List ℕ) :
    create_co_matrix corpus 0 =
      List.replicate (vocabSize corpus) (List.replicate (vocabSize corpus) 0) := by
  have h : coEvents corpus 0 = [] := by simp [coEvents]
  rw [create_co_matrix, h]
  rfl

/-! Co-occurrence matrix: entries count scan events, and the event multiset
is symmetric. -/

/-- Shape invariant: a `v × v` matrix stored as a vector of row vectors. -/
def WfM (m : List (List ℕ)) (v : ℕ) : Prop := m.length = v ∧ ∀ r ∈ m, r.length = v

theorem wfM_bump {m : List (List ℕ)} {v a b : ℕ} (h : WfM m v) (ha : a < v) :
    WfM (bump m a b) v := by
  obtain ⟨hl, hr⟩ := h
  refine ⟨by simpa [bump] using hl, ?_⟩
  intro r hrm
  rcases List.mem_or_eq_of_mem_set hrm with h1 | h1
  · exact hr r h1
  · subst h1
    rw [List.length_set]
    have hlt : a < m.length := by omega
    rw [List.getD_eq_getElem _ _ hlt]
    exact hr _ (List.getElem_mem hlt)

theorem getD_list_set_ne {α : Type} (l : List α) {i j : ℕ} (h : i ≠ j) (v : α) (d : α) :
    (l.set i v).getD j d = l.getD j d := by
  simp [List.getD_eq_getElem?_getD, List.getElem?_set_ne h]

theorem getD_list_set_self {α : Type} (l : List α) {i : ℕ} (h : i < l.length) (v : α) (d : α) :
    (l.set i v).getD i d = v := by
  rw [List.getD_eq_getElem?_getD, List.getElem?_eq_getElem (by simpa using h),
    List.getElem_set_self]
  rfl

theorem entry_bump {m : List (List ℕ)} {v a b : ℕ} (h : WfM m v) (ha : a < v) (hb : b < v)
    (x y : ℕ) :
    entry (bump m a b) x y = entry m x y + if a = x ∧ b = y then 1 else 0 := by
  obtain ⟨hl, hr⟩ := h
  have hlt : a < m.length := by omega
  by_cases hx : a = x
  · subst hx
    have hrow : (m.getD a []).length = v := by
      rw [List.getD_eq_getElem _ _ hlt]
      exact hr _ (List.getElem_mem hlt)
    unfold entry bump
    rw [getD_list_set_self _ hlt]
    by_cases hy : b = y
    · subst hy
      rw [getD_list_set_self _ (by omega)]
      simp
    · rw [getD_list_set_ne _ hy]
      simp [hy]
  · unfold entry bump
    rw [getD_list_set_ne _ hx]
    simp [hx]

theorem entry_foldl_bump {v : ℕ} (l : List (ℕ × ℕ)) :
    ∀ m : List (List ℕ), WfM m v → (∀ p ∈ l, p.1 < v ∧ p.2 < v) → ∀ x y,
      entry (l.foldl (fun m e => bump m e.1 e.2) m) x y = entry m x y + l.count (x, y) := by
  induction l with
  | nil => intro m _ _ x y; simp
  | cons e t ih =>
    intro m hm hlt x y
    have he := hlt e (by simp)
    have hwf : WfM (bump m e.1 e.2) v := wfM_bump hm he.1
    rw [List.foldl_cons, ih _ hwf (fun p hp => hlt p (by simp [hp])) x y,
      entry_bump hm he.1 he.2, List.count_cons]
    by_cases hc : e = (x, y)
    · subst hc
      simp
      omega
    · have h1 : ¬(e.1 = x ∧ e.2 = y) := fun hcon => hc (Prod.ext_iff.mpr hcon)
      have h2 : (e == (x, y)) = false := by simpa using hc
      rw [if_neg h1, h2]
      simp

theorem entry_replicate_zero (v i j : ℕ) :
    entry (List.replicate v (List.replicate v (0 : ℕ))) i j = 0 := by
  simp only [entry, List.getD_eq_getElem?_getD, List.getElem?_replicate]
  by_cases hi : i < v <;> by_cases hj : j < v <;> simp [hi, hj]

theorem mem_lt_vocabSize {corpus : List ℕ} {x : ℕ} (hx : x ∈ corpus) : x < vocabSize corpus := by
  unfold vocabSize
  cases hmax : corpus.max? with
  | none => rw [List.max?_eq_none_iff] at hmax; subst hmax; cases hx
  | some m =>
    have h2 := List.le_max?_get_of_mem hx
    simp only [hmax, Option.get_some] at h2
    show x < m + 1
    omega

theorem coEvents_mem_lt {corpus : List ℕ} {w : ℕ} {p : ℕ × ℕ}
    (hp : p ∈ coEvents corpus w) : p.1 < vocabSize corpus ∧ p.2 < vocabSize corpus := by
  simp only [coEvents, List.mem_flatMap, List.mem_append, List.mem_range] at hp
  obtain ⟨idx, hidx, i, hi, hcase⟩ := hp
  have hget : ∀ k, k < corpus.length → corpus.getD k 0 < vocabSize corpus := by
    intro k hk
    rw [List.getD_eq_getElem _ _ hk]
    exact mem_lt_vocabSize (List.getElem_mem hk)
  rcases hcase with hc | hc
  · by_cases hle : i ≤ idx
    · simp only [if_pos hle, List.mem_singleton] at hc
      subst hc
      exact ⟨hget _ hidx, hget _ (by omega)⟩
    · simp [if_neg hle] at hc
  · by_cases hlt2 : idx + i < corpus.length
    · simp only [if_pos hlt2, List.mem_singleton] at hc
      subst hc
      exact ⟨hget _ hidx, hget _ hlt2⟩
    · simp [if_neg hlt2] at hc

theorem entry_create_co_matrix (corpus : List ℕ) (w x y : ℕ) :
    entry (create_co_matrix corpus w) x y = (coEvents corpus w).count (x, y) := by
  rw [create_co_matrix,
    entry_foldl_bump (v := vocabSize corpus) _ _
      ⟨by simp, fun r hr => by simp_all [List.eq_of_mem_replicate hr]⟩
      (fun p hp => coEvents_mem_lt hp),
    entry_replicate_zero]
  omega

theorem list_sum_map_range (g : ℕ → ℕ) (n : ℕ) :
    ((List.range n).map g).sum = ∑ i ∈ Finset.range n, g i := by
  induction n with
  | zero => simp
  | succ n ih =>
    rw [List.range_succ, List.map_append, List.sum_append, Finset.sum_range_succ, ih]
    simp

theorem count_ite_singleton {α : Type} [BEq α] [LawfulBEq α] [DecidableEq α] (c : Prop)
    [inst : Decidable c] (e a : α) :
    List.count a (if c then [e] else []) = if c ∧ e = a then 1 else 0 := by
  by_cases h : c <;> by_cases he : e = a <;> simp [h, he, List.count_cons]

theorem count_coEvents (c : List ℕ) (w x y : ℕ) :
    (coEvents c w).count (x, y) =
      ∑ p ∈ Finset.range c.length, ∑ i ∈ Finset.range w,
        ((if 1 + i ≤ p ∧ c.getD p 0 = x ∧ c.getD (p - (1 + i)) 0 = y then 1 else 0) +
         (if p + (1 + i) < c.length ∧ c.getD p 0 = x ∧ c.getD (p + (1 + i)) 0 = y
          then 1 else 0)) := by
  rw [coEvents, List.count_flatMap, list_sum_map_range]
  refine Finset.sum_congr rfl fun p _ => ?_
  simp only [Function.comp_apply]
  rw [List.count_flatMap, List.range'_eq_map_range, List.map_map, list_sum_map_range]
  refine Finset.sum_congr rfl fun i _ => ?_
  simp only [Function.comp_apply]
  rw [List.count_append, count_ite_singleton, count_ite_singleton]
  congr 1 <;> simp [Prod.ext_iff, and_assoc]

theorem sum_left_eq_sum_right (c : List ℕ) (w x y : ℕ) :
    (∑ p ∈ Finset.range c.length, ∑ i ∈ Finset.range w,
      (if 1 + i ≤ p ∧ c.getD p 0 = x ∧ c.getD (p - (1 + i)) 0 = y then 1 else 0)) =
    (∑ q ∈ Finset.range c.length, ∑ i ∈ Finset.range w,
      (if q + (1 + i) < c.length ∧ c.getD q 0 = y ∧ c.getD (q + (1 + i)) 0 = x
       then 1 else 0)) := by
  rw [← Finset.sum_product', ← Finset.sum_product']
  rw [← Finset.card_filter, ← Finset.card_filter]
  refine Finset.card_bij' (fun a _ => (a.1 - (1 + a.2), a.2))
    (fun b _ => (b.1 + (1 + b.2), b.2)) ?_ ?_ ?_ ?_
  · intro a ha
    simp only [Finset.mem_filter, Finset.mem_product, Finset.mem_range] at ha ⊢
    obtain ⟨⟨hp, hi⟩, hle, hx, hy⟩ := ha
    have harg : a.1 - (1 + a.2) + (1 + a.2) = a.1 := by omega
    refine ⟨⟨by omega, hi⟩, by omega, hy, ?_⟩
    rw [harg]
    exact hx
  · intro b hb
    simp only [Finset.mem_filter, Finset.mem_product, Finset.mem_range] at hb ⊢
    obtain ⟨⟨hq, hi⟩, hlt, hy, hx⟩ := hb
    have harg : b.1 + (1 + b.2) - (1 + b.2) = b.1 := by omega
    refine ⟨⟨by omega, hi⟩, by omega, ?_, ?_⟩
    · exact hx
    · rw [harg]
      exact hy
  · intro a ha
    simp only [Finset.mem_filter, Finset.mem_product, Finset.mem_range] at ha
    obtain ⟨⟨hp, hi⟩, hle, hx, hy⟩ := ha
    have : a.1 - (1 + a.2) + (1 + a.2) = a.1 := by omega
    exact Prod.ext_iff.mpr ⟨this, rfl⟩
  · intro b hb
    have : b.1 + (1 + b.2) - (1 + b.2) = b.1 := by omega
    exact Prod.ext_iff.mpr ⟨this, rfl⟩

theorem coEvents_count_symm (c : List ℕ) (w x y : ℕ) :
    (coEvents c w).count (x, y) = (coEvents c w).count (y, x) := by
  rw [count_coEvents, count_coEvents]
  have hsplit : ∀ a b : ℕ,
      (∑ p ∈ Finset.range c.length, ∑ i ∈ Finset.range w,
        ((if 1 + i ≤ p ∧ c.getD p 0 = a ∧ c.getD (p - (1 + i)) 0 = b then 1 else 0) +
         (if p + (1 + i) < c.length ∧ c.getD p 0 = a ∧ c.getD (p + (1 + i)) 0 = b
          then 1 else 0))) =
      (∑ p ∈ Finset.range c.length, ∑ i ∈ Finset.range w,
        (if 1 + i ≤ p ∧ c.getD p 0 = a ∧ c.getD (p - (1 + i)) 0 = b then 1 else 0)) +
      (∑ p ∈ Finset.range c.length, ∑ i ∈ Finset.range w,
        (if p + (1 + i) < c.length ∧ c.getD p 0 = a ∧ c.getD (p + (1 + i)) 0 = b
         then 1 else 0)) := by
    intro a b
    rw [← Finset.sum_add_distrib]
    refine Finset.sum_congr rfl fun p _ => ?_
    rw [← Finset.sum_add_distrib]
  rw [hsplit, hsplit, sum_left_eq_sum_right c w x y, sum_left_eq_sum_right c w y x]
  omega

/-- C6: for every corpus and window size ≥ 1, the co-occurrence matrix is
symmetric: every scan event `(a, b)` at center `p` and offset `o` is matched
by the event `(b, a)` at center `p - o` and the same offset. -/
theorem create_co_matrix_symmetric (corpus : List ℕ) (windowSize : ℕ)
    (_hw : 1 ≤ windowSize) (i j : ℕ) :
    entry (create_co_matrix corpus windowSize) i j =
      entry (create_co_matrix corpus windowSize) j i := by
  rw [entry_create_co_matrix, entry_create_co_matrix]
  exact coEvents_count_symm corpus windowSize i j

/-- C6 (witness): the window-1 matrix of the corpus `[0, 1, 0]` is symmetric
at the cell pair `(0, 1)`/`(1, 0)`. -/
theorem create_co_matrix_symmetric_witness :
    1 ≤ 1 ∧ entry (create_co_matrix [0, 1, 0] 1) 0 1 = entry (create_co_matrix [0, 1, 0] 1) 1 0 :=
  ⟨by decide, create_co_matrix_symmetric [0, 1, 0] 1 (by decide) 0 1⟩

/-! PPMI: wrapped sums equal the exact sums absent overflow, and the per-cell
analysis of `pmiCell`. -/

theorem foldl_usizeAdd_eq (l : List ℕ) :
    ∀ a : ℕ, a + l.sum < W64 → l.foldl usizeAdd a = a + l.sum := by
  induction l with
  | nil => intro a _; simp
  | cons x t ih =>
    intro a h
    rw [List.sum_cons] at h
    have hx : usizeAdd a x = a + x := Nat.mod_eq_of_lt (by omega)
    rw [List.foldl_cons, hx, ih (a + x) (by omega), List.sum_cons]
    omega

theorem getD_le_sum (r : List ℕ) (i : ℕ) : r.getD i 0 ≤ r.sum := by
  rcases Nat.lt_or_ge i r.length with h | h
  · rw [List.getD_eq_getElem _ _ h]
    exact List.single_le_sum (fun x _ => Nat.zero_le x) _ (List.getElem_mem h)
  · rw [List.getD_eq_default _ _ h]
    exact Nat.zero_le _

theorem rowSum_le_totalNExact {c : List (List ℕ)} {r : List ℕ} (hr : r ∈ c) :
    r.sum ≤ totalNExact c :=
  List.single_le_sum (fun x _ => Nat.zero_le x) _ (List.mem_map_of_mem _ hr)

theorem colSumExact_le_totalNExact (c : List (List ℕ)) (i : ℕ) :
    colSumExact c i ≤ totalNExact c :=
  List.sum_le_sum fun r _ => getD_le_sum r i

theorem entry_le_colSumExact (c : List (List ℕ)) (i j : ℕ) :
    entry c i j ≤ colSumExact c j := by
  rcases Nat.lt_or_ge i c.length with h | h
  · have hmem : c.getD i [] ∈ c := by
      rw [List.getD_eq_getElem _ _ h]
      exact List.getElem_mem h
    exact List.single_le_sum (fun x _ => Nat.zero_le x) _
      (List.mem_map_of_mem (fun r => r.getD j 0) hmem)
  · show (c.getD i []).getD j 0 ≤ _
    rw [List.getD_eq_default _ _ h]
    exact Nat.zero_le _

theorem entry_le_totalNExact (c : List (List ℕ)) (i j : ℕ) :
    entry c i j ≤ totalNExact c :=
  le_trans (entry_le_colSumExact c i j) (colSumExact_le_totalNExact c j)

theorem totalNExact_lt_W64 {c : List (List ℕ)}
    (hbound : totalNExact c * totalNExact c < W64) : totalNExact c < W64 := by
  rcases Nat.eq_zero_or_pos (totalNExact c) with h | h
  · rw [h]
    norm_num [W64]
  · have := Nat.le_mul_of_pos_left (totalNExact c) h
    omega

theorem totalN_eq_exact {c : List (List ℕ)} (h : totalNExact c < W64) :
    totalN c = totalNExact c := by
  unfold totalN
  have hrows : c.map rowSumU = c.map fun r => r.sum := by
    refine List.map_congr_left fun r hr => ?_
    have hsum : r.sum ≤ totalNExact c := rowSum_le_totalNExact hr
    show r.foldl usizeAdd 0 = r.sum
    rw [foldl_usizeAdd_eq r 0 (by omega)]
    omega
  rw [hrows]
  have h2 : (0 : ℕ) + (c.map fun r => r.sum).sum < W64 := by
    show 0 + totalNExact c < W64
    omega
  rw [foldl_usizeAdd_eq _ 0 h2]
  show 0 + totalNExact c = totalNExact c
  omega

theorem getD_map_range {α : Type} (g : ℕ → α) {n i : ℕ} (h : i < n) (d : α) :
    ((List.range n).map g).getD i d = g i := by
  rw [List.getD_eq_getElem _ _ (by simpa using h)]
  rw [List.getElem_map, List.getElem_range]

theorem sVec_getD_eq {c : List (List ℕ)} (hN : totalNExact c < W64) {i : ℕ}
    (hi : i < (c.headD []).length) : (sVec c).getD i 0 = colSumExact c i := by
  unfold sVec
  rw [getD_map_range _ hi]
  have hle : colSumExact c i ≤ totalNExact c := colSumExact_le_totalNExact c i
  have h2 : (0 : ℕ) + (c.map fun r => r.getD i 0).sum < W64 := by
    show 0 + colSumExact c i < W64
    omega
  rw [foldl_usizeAdd_eq _ 0 h2]
  show 0 + colSumExact c i = colSumExact c i
  omega

theorem headD_length_eq {c : List (List ℕ)} (hne : c ≠ [])
    (hsq : ∀ r ∈ c, r.length = c.length) : (c.headD []).length = c.length := by
  cases c with
  | nil => exact absurd rfl hne
  | cons r t => exact hsq r (by simp)

theorem ppmi_eq_some {c : List (List ℕ)} (hne : c ≠ [])
    (hsq : ∀ r ∈ c, r.length = c.length) :
    ppmi c = some ((List.range c.length).map fun i =>
      (List.range (c.headD []).length).map fun j =>
        pmiCell (pmiNum c i j) (pmiDen c i j)) := by
  have hh := headD_length_eq hne hsq
  rw [ppmi, if_pos]
  exact ⟨hne, fun r hr => by rw [hh, hsq r hr], by rw [hh]⟩

theorem pentry_ppmi {c : List (List ℕ)} (hne : c ≠ [])
    (hsq : ∀ r ∈ c, r.length = c.length) {i j : ℕ}
    (hi : i < c.length) (hj : j < c.length) :
    pentry ((List.range c.length).map fun i =>
      (List.range (c.headD []).length).map fun j =>
        pmiCell (pmiNum c i j) (pmiDen c i j)) i j =
      pmiCell (pmiNum c i j) (pmiDen c i j) := by
  have hh := headD_length_eq hne hsq
  unfold pentry
  rw [getD_map_range _ hi, getD_map_range _ (by omega)]

theorem pmiNum_exact {c : List (List ℕ)} (hbound : totalNExact c * totalNExact c < W64)
    (i j : ℕ) : pmiNum c i j = entry c i j * totalNExact c := by
  have hN := totalNExact_lt_W64 hbound
  rw [pmiNum, usizeMul, totalN_eq_exact hN]
  apply Nat.mod_eq_of_lt
  calc entry c i j * totalNExact c ≤ totalNExact c * totalNExact c :=
        Nat.mul_le_mul_right _ (entry_le_totalNExact c i j)
    _ < W64 := hbound

theorem pmiDen_exact {c : List (List ℕ)} (hne : c ≠ [])
    (hsq : ∀ r ∈ c, r.length = c.length)
    (hbound : totalNExact c * totalNExact c < W64)
    {i j : ℕ} (hi : i < c.length) (hj : j < c.length) :
    pmiDen c i j = colSumExact c j * colSumExact c i := by
  have hN := totalNExact_lt_W64 hbound
  have hh := headD_length_eq hne hsq
  rw [pmiDen, usizeMul, sVec_getD_eq hN (by omega), sVec_getD_eq hN (by omega)]
  apply Nat.mod_eq_of_lt
  calc colSumExact c j * colSumExact c i ≤ totalNExact c * totalNExact c :=
        Nat.mul_le_mul (colSumExact_le_totalNExact c j) (colSumExact_le_totalNExact c i)
    _ < W64 := hbound

theorem eps_real_pos : (0 : ℝ) < ((EPSILON32 : ℚ) : ℝ) := by
  norm_num [EPSILON32]

theorem logb_eps_neg : Real.logb 2 ((EPSILON32 : ℚ) : ℝ) < 0 := by
  refine Real.logb_neg (by norm_num) (by norm_num [EPSILON32]) ?_
  norm_num [EPSILON32]

theorem pmiCell_spec {c : List (List ℕ)} (hne : c ≠ [])
    (hsq : ∀ r ∈ c, r.length = c.length)
    (hbound : totalNExact c * totalNExact c < W64)
    (hguard : ∀ i, i < c.length → colSumExact c i = 0 →
      ∀ j, j < c.length → entry c i j = 0)
    {i j : ℕ} (hi : i < c.length) (hj : j < c.length) :
    (pmiCell (pmiNum c i j) (pmiDen c i j) = PVal.zero ∨
      ∃ q, pmiCell (pmiNum c i j) (pmiDen c i j) = PVal.plog q ∧ 1 < q) ∧
    (pmiCell (pmiNum c i j) (pmiDen c i j)).toEReal = ((ppmiSpecCell c i j : ℝ) : EReal) ∧
    ((colSumExact c i = 0 ∨ colSumExact c j = 0) →
      pmiCell (pmiNum c i j) (pmiDen c i j) = PVal.zero) := by
  rw [pmiNum_exact hbound, pmiDen_exact hne hsq hbound hi hj]
  by_cases hden : colSumExact c j * colSumExact c i = 0
  · have hent : entry c i j = 0 := by
      rcases Nat.mul_eq_zero.mp hden with hsj | hsi
      · have := entry_le_colSumExact c i j
        omega
      · exact hguard i hi hsi j hj
    have hnum : entry c i j * totalNExact c = 0 := by
      rw [hent, Nat.zero_mul]
    have hcell : pmiCell (entry c i j * totalNExact c) (colSumExact c j * colSumExact c i)
        = PVal.zero := by
      rw [hnum, pmiCell, if_pos hden, if_pos rfl]
    have hspec : ppmiSpecCell c i j = 0 := by
      unfold ppmiSpecCell
      simp only [hent, Nat.cast_zero, zero_mul, zero_div, zero_add]
      rw [if_neg (not_lt.mpr (le_of_lt logb_eps_neg))]
    rw [hcell, hspec]
    exact ⟨Or.inl rfl, by simp [PVal.toEReal], fun _ => rfl⟩
  · have harg : ((entry c i j : ℝ) * (totalNExact c : ℝ)) /
        ((colSumExact c i : ℝ) * (colSumExact c j : ℝ)) + ((EPSILON32 : ℚ) : ℝ)
        = ((((entry c i j * totalNExact c : ℕ) : ℚ) /
            ((colSumExact c j * colSumExact c i : ℕ) : ℚ) + EPSILON32 : ℚ) : ℝ) := by
      push_cast
      ring
    have hq0 : (0 : ℚ) < ((entry c i j * totalNExact c : ℕ) : ℚ) /
        ((colSumExact c j * colSumExact c i : ℕ) : ℚ) + EPSILON32 := by
      have h1 : (0 : ℚ) ≤ ((entry c i j * totalNExact c : ℕ) : ℚ) /
          ((colSumExact c j * colSumExact c i : ℕ) : ℚ) :=
        div_nonneg (Nat.cast_nonneg _) (Nat.cast_nonneg _)
      have h2 : (0 : ℚ) < EPSILON32 := by norm_num [EPSILON32]
      linarith
    by_cases hgt : 1 < ((entry c i j * totalNExact c : ℕ) : ℚ) /
        ((colSumExact c j * colSumExact c i : ℕ) : ℚ) + EPSILON32
    · have hcell : pmiCell (entry c i j * totalNExact c) (colSumExact c j * colSumExact c i)
          = PVal.plog (((entry c i j * totalNExact c : ℕ) : ℚ) /
            ((colSumExact c j * colSumExact c i : ℕ) : ℚ) + EPSILON32) := by
        rw [pmiCell, if_neg hden, if_pos hgt]
      have hv : (0 : ℝ) < Real.logb 2
          ((((entry c i j * totalNExact c : ℕ) : ℚ) /
            ((colSumExact c j * colSumExact c i : ℕ) : ℚ) + EPSILON32 : ℚ) : ℝ) := by
        refine Real.logb_pos (by norm_num) ?_
        exact_mod_cast hgt
      have hspec : ppmiSpecCell c i j = Real.logb 2
          ((((entry c i j * totalNExact c : ℕ) : ℚ) /
            ((colSumExact c j * colSumExact c i : ℕ) : ℚ) + EPSILON32 : ℚ) : ℝ) := by
        unfold ppmiSpecCell
        rw [harg, if_pos hv]
      rw [hcell, hspec]
      refine ⟨Or.inr ⟨_, rfl, hgt⟩, rfl, fun hzm => ?_⟩
      exfalso
      rcases hzm with h0 | h0 <;> simp [h0] at hden
    · have hcell : pmiCell (entry c i j * totalNExact c) (colSumExact c j * colSumExact c i)
          = PVal.zero := by
        rw [pmiCell, if_neg hden, if_neg hgt]
      have hv : Real.logb 2
          ((((entry c i j * totalNExact c : ℕ) : ℚ) /
            ((colSumExact c j * colSumExact c i : ℕ) : ℚ) + EPSILON32 : ℚ) : ℝ) ≤ 0 := by
        refine Real.logb_nonpos (by norm_num) ?_ ?_
        · exact_mod_cast le_of_lt hq0
        · exact_mod_cast not_lt.mp hgt
      have hspec : ppmiSpecCell c i j = 0 := by
        unfold ppmiSpecCell
        rw [harg, if_neg (not_lt.mpr hv)]
      rw [hcell, hspec]
      exact ⟨Or.inl rfl, by simp [PVal.toEReal], fun _ => rfl⟩

/-- C7 (amended): for every nonempty square matrix whose total mass `N`
satisfies `N * N < 2^64` (no `usize` wrap in the products) and in which a
token with zero marginal has an all-zero row (true of every symmetric
matrix, hence of every `create_co_matrix` output), `ppmi` succeeds and
every output cell is ≥ 0 and equals `log2(m[i][j]·N/(s[i]·s[j]) + ε)` when
that value is positive, and `0` otherwise. -/
theorem ppmi_nonneg_matches_spec {c : List (List ℕ)} (hne : c ≠ [])
    (hsq : ∀ r ∈ c, r.length = c.length)
    (hbound : totalNExact c * totalNExact c < W64)
    (hguard : ∀ i, i < c.length → colSumExact c i = 0 →
      ∀ j, j < c.length → entry c i j = 0) :
    ∃ P, ppmi c = some P ∧ ∀ i j, i < c.length → j < c.length →
      0 ≤ (pentry P i j).toEReal ∧
      (pentry P i j).toEReal = ((ppmiSpecCell c i j : ℝ) : EReal) := by
  refine ⟨_, ppmi_eq_some hne hsq, fun i j hi hj => ?_⟩
  rw [pentry_ppmi hne hsq hi hj]
  obtain ⟨hcase, heq, _⟩ := pmiCell_spec hne hsq hbound hguard hi hj
  refine ⟨?_, heq⟩
  rcases hcase with h0 | ⟨q, hq, hq1⟩
  · rw [h0]
    simp [PVal.toEReal]
  · rw [hq]
    show (0 : EReal) ≤ ((Real.logb 2 (q : ℝ) : ℝ) : EReal)
    have h1 : (0 : ℝ) ≤ Real.logb 2 (q : ℝ) :=
      le_of_lt (Real.logb_pos (by norm_num) (by exact_mod_cast hq1))
    exact_mod_cast h1

/-- C7 (witness): the amended statement applied to the concrete symmetric
matrix `[[0, 0], [0, 1]]`, which has a zero marginal. -/
theorem ppmi_nonneg_matches_spec_witness :
    ([[0, 0], [0, 1]] : List (List ℕ)) ≠ [] ∧
    (∀ r ∈ ([[0, 0], [0, 1]] : List (List ℕ)),
      r.length = ([[0, 0], [0, 1]] : List (List ℕ)).length) ∧
    totalNExact [[0, 0], [0, 1]] * totalNExact [[0, 0], [0, 1]] < W64 ∧
    (∀ i, i < ([[0, 0], [0, 1]] : List (List ℕ)).length →
      colSumExact [[0, 0], [0, 1]] i = 0 →
      ∀ j, j < ([[0, 0], [0, 1]] : List (List ℕ)).length →
        entry [[0, 0], [0, 1]] i j = 0) ∧
    (∃ P, ppmi [[0, 0], [0, 1]] = some P ∧
      ∀ i j, i < ([[0, 0], [0, 1]] : List (List ℕ)).length →
        j < ([[0, 0], [0, 1]] : List (List ℕ)).length →
        0 ≤ (pentry P i j).toEReal ∧
        (pentry P i j).toEReal = ((ppmiSpecCell [[0, 0], [0, 1]] i j : ℝ) : EReal)) :=
  ⟨by decide, by decide, by decide, by decide,
    ppmi_nonneg_matches_spec (by decide) (by decide) (by decide) (by decide)⟩

/-- C7 (counterexample): on the asymmetric matrix `[[0, 1], [0, 0]]` the cell
`(0, 1)` has a positive count but a zero marginal product, so the source
computes `log2(1/0 + ε) = +∞` and stores `+∞`, which differs from the
spec formula's value (`0`, the log argument degenerating to `ε`). -/
theorem ppmi_spec_cex :
    (ppmi [[0, 1], [0, 0]]).map (fun p => pentry p 0 1) = some PVal.pinf ∧
    (PVal.pinf).toEReal ≠ ((ppmiSpecCell [[0, 1], [0, 0]] 0 1 : ℝ) : EReal) := by
  constructor
  · decide
  · show (⊤ : EReal) ≠ _
    exact (EReal.coe_ne_top _).symm

/-- C3 (amended): when every zero-marginal token also has an all-zero row
(as in every symmetric matrix, in particular every `create_co_matrix`
output) and the products stay below `2^64`, the `pmi > 0.0` test silently
guards the zero-marginal cells — the `0/0 = NaN` comparison is false, the
cell keeps its initial `0.0` — and no `NaN` or `inf` is ever stored.  For
general matrices this fails (see the counterexample). -/
theorem ppmi_zero_marginal_guarded {c : List (List ℕ)} (hne : c ≠ [])
    (hsq : ∀ r ∈ c, r.length = c.length)
    (hbound : totalNExact c * totalNExact c < W64)
    (hguard : ∀ i, i < c.length → colSumExact c i = 0 →
      ∀ j, j < c.length → entry c i j = 0) :
    ∃ P, ppmi c = some P ∧ ∀ i j, i < c.length → j < c.length →
      pentry P i j ≠ PVal.pinf ∧
      ((colSumExact c i = 0 ∨ colSumExact c j = 0) → pentry P i j = PVal.zero) := by
  refine ⟨_, ppmi_eq_some hne hsq, fun i j hi hj => ?_⟩
  rw [pentry_ppmi hne hsq hi hj]
  obtain ⟨hcase, _, hzm⟩ := pmiCell_spec hne hsq hbound hguard hi hj
  refine ⟨?_, hzm⟩
  rcases hcase with h0 | ⟨q, hq, _⟩
  · rw [h0]
    intro hcon
    cases hcon
  · rw [hq]
    intro hcon
    cases hcon

/-- C3 (witness): the amended statement applied to the concrete symmetric
matrix `[[1, 0], [0, 0]]`, whose token 1 has zero marginal. -/
theorem ppmi_zero_marginal_guarded_witness :
    ([[1, 0], [0, 0]] : List (List ℕ)) ≠ [] ∧
    (∀ r ∈ ([[1, 0], [0, 0]] : List (List ℕ)),
      r.length = ([[1, 0], [0, 0]] : List (List ℕ)).length) ∧
    totalNExact [[1, 0], [0, 0]] * totalNExact [[1, 0], [0, 0]] < W64 ∧
    (∀ i, i < ([[1, 0], [0, 0]] : List (List ℕ)).length →
      colSumExact [[1, 0], [0, 0]] i = 0 →
      ∀ j, j < ([[1, 0], [0, 0]] : List (List ℕ)).length →
        entry [[1, 0], [0, 0]] i j = 0) ∧
    (∃ P, ppmi [[1, 0], [0, 0]] = some P ∧
      ∀ i j, i < ([[1, 0], [0, 0]] : List (List ℕ)).length →
        j < ([[1, 0], [0, 0]] : List (List ℕ)).length →
        pentry P i j ≠ PVal.pinf ∧
        ((colSumExact [[1, 0], [0, 0]] i = 0 ∨ colSumExact [[1, 0], [0, 0]] j = 0) →
          pentry P i j = PVal.zero)) :=
  ⟨by decide, by decide, by decide, by decide,
    ppmi_zero_marginal_guarded (by decide) (by decide) (by decide) (by decide)⟩

/-- C3 (counterexample): `[[0, 1], [0, 0]]` has the zero marginal `s[0] = 0`,
yet `ppmi` neither fails nor treats the affected cell `(0, 1)` as zero: it
stores `+∞` there (`1/0 = +inf`, `log2(+inf) = +inf > 0`). -/
theorem ppmi_inf_cex :
    colSumExact [[0, 1], [0, 0]] 0 = 0 ∧
    (ppmi [[0, 1], [0, 0]]).map (fun p => pentry p 0 1) = some PVal.pinf := by
  decide

/-! The stable insertion sort: permutation and ordering facts. -/

theorem mem_insertAsc (x : Word × ℝ) (l : List (Word × ℝ)) (z : Word × ℝ) :
    z ∈ insertAsc x l ↔ z = x ∨ z ∈ l := by
  induction l with
  | nil => simp [insertAsc]
  | cons y ys ih =>
    unfold insertAsc
    by_cases h : x.2 < y.2
    · rw [if_pos h]
      simp [List.mem_cons]
    · rw [if_neg h]
      simp only [List.mem_cons, ih]
      tauto

theorem insertAsc_perm (x : Word × ℝ) (l : List (Word × ℝ)) :
    (insertAsc x l).Perm (x :: l) := by
  induction l with
  | nil => exact List.Perm.refl _
  | cons y ys ih =>
    unfold insertAsc
    by_cases h : x.2 < y.2
    · rw [if_pos h]
    · rw [if_neg h]
      exact (ih.cons y).trans (List.Perm.swap x y ys)

theorem sortAsc_foldl_perm (l : List (Word × ℝ)) :
    ∀ acc, (l.foldl (fun acc x => insertAsc x acc) acc).Perm (acc ++ l) := by
  induction l with
  | nil => intro acc; simp
  | cons x t ih =>
    intro acc
    rw [List.foldl_cons]
    refine ((ih _).trans ?_)
    refine ((insertAsc_perm x acc).append_right t).trans ?_
    exact List.perm_middle.symm

theorem sortAsc_perm (l : List (Word × ℝ)) : (sortAsc l).Perm l := by
  simpa using sortAsc_foldl_perm l []

theorem insertAsc_pairwise (g : Word × ℝ → ℕ) (x : Word × ℝ) (acc : List (Word × ℝ))
    (hacc : acc.Pairwise fun a b => a.2 < b.2 ∨ (a.2 = b.2 ∧ g a < g b))
    (hall : ∀ a ∈ acc, g a < g x) :
    (insertAsc x acc).Pairwise fun a b => a.2 < b.2 ∨ (a.2 = b.2 ∧ g a < g b) := by
  induction acc with
  | nil => simp [insertAsc]
  | cons y ys ih =>
    rw [List.pairwise_cons] at hacc
    obtain ⟨hy, hys⟩ := hacc
    unfold insertAsc
    by_cases h : x.2 < y.2
    · rw [if_pos h]
      refine List.pairwise_cons.mpr ⟨?_, List.pairwise_cons.mpr ⟨hy, hys⟩⟩
      intro z hz
      rcases List.mem_cons.mp hz with rfl | hzys
      · exact Or.inl h
      · rcases hy z hzys with h2 | ⟨h2, _⟩
        · exact Or.inl (lt_trans h h2)
        · exact Or.inl (h2 ▸ h)
    · rw [if_neg h]
      refine List.pairwise_cons.mpr
        ⟨?_, ih hys fun a ha => hall a (by simp [ha])⟩
      intro z hz
      rcases (mem_insertAsc x ys z).mp hz with rfl | hzys
      · rcases lt_or_eq_of_le (not_lt.mp h) with h2 | h2
        · exact Or.inl h2
        · exact Or.inr ⟨h2, hall y (by simp)⟩
      · exact hy z hzys

theorem foldl_insert_pairwise (g : Word × ℝ → ℕ) (M : List (Word × ℝ)) :
    ∀ acc : List (Word × ℝ),
      (acc.Pairwise fun a b => a.2 < b.2 ∨ (a.2 = b.2 ∧ g a < g b)) →
      (M.Pairwise fun a b => g a < g b) →
      (∀ a ∈ acc, ∀ b ∈ M, g a < g b) →
      ((M.foldl (fun acc x => insertAsc x acc) acc).Pairwise
        fun a b => a.2 < b.2 ∨ (a.2 = b.2 ∧ g a < g b)) := by
  induction M with
  | nil => intro acc h _ _; simpa using h
  | cons x t ih =>
    intro acc hacc hM hcross
    rw [List.pairwise_cons] at hM
    rw [List.foldl_cons]
    refine ih _ (insertAsc_pairwise g x acc hacc fun a ha => hcross a ha x (by simp))
      hM.2 ?_
    intro a ha b hb
    rcases (mem_insertAsc x acc a).mp ha with rfl | haacc
    · exact hM.1 b hb
    · exact hcross a haacc b (by simp [hb])

theorem sortAsc_pairwise (g : Word × ℝ → ℕ) (M : List (Word × ℝ))
    (hM : M.Pairwise fun a b => g a < g b) :
    (sortAsc M).Pairwise fun a b => a.2 < b.2 ∨ (a.2 = b.2 ∧ g a < g b) :=
  foldl_insert_pairwise g M [] (by simp) hM (by simp)

/-! Structure of `most_similar` under a well-formed vocabulary. -/

theorem simList_eq_map {itw : List (ℕ × Word)} {ws : List Word} {n : ℕ} (qv : List ℕ)
    (hlook : ∀ i, i < n → List.lookup i itw = some (ws.getD i [])) :
    ∀ L : List (ℕ × List ℕ), (∀ p ∈ L, p.1 < n) →
      simList itw qv L = some (L.map fun p => (ws.getD p.1 [], cos_similarity p.2 qv)) := by
  intro L
  induction L with
  | nil => intro _; rfl
  | cons p rest ih =>
    intro hall
    obtain ⟨i, row⟩ := p
    have hi : i < n := hall (i, row) (by simp)
    show (match List.lookup i itw, simList itw qv rest with
      | some w, some l => some ((w, cos_similarity row qv) :: l)
      | _, _ => none) = _
    rw [hlook i hi, ih fun p hp => hall p (by simp [hp])]
    rfl

theorem enum_pairwise_fst (m : List (List ℕ)) :
    m.enum.Pairwise fun a b => a.1 < b.1 := by
  have h := List.pairwise_lt_range m.length
  rw [← List.enum_map_fst m, List.pairwise_map] at h
  exact h

theorem mem_enum_fst_lt {m : List (List ℕ)} {p : ℕ × List ℕ} (hp : p ∈ m.enum) :
    p.1 < m.length := by
  obtain ⟨a, b⟩ := p
  rw [List.enum_eq_zip_range] at hp
  have h := List.of_mem_zip hp
  exact List.mem_range.mp h.1

theorem most_similar_eq {query : Word} {wti : List (Word × ℕ)} {itw : List (ℕ × Word)}
    {m : List (List ℕ)} {ws : List Word} {q n : ℕ}
    (hlook : ∀ i, i < n → List.lookup i itw = some (ws.getD i []))
    (hq : List.lookup query wti = some q) (hqn : q < n) (hm : m.length = n) :
    most_similar query wti itw m =
      some ((sortAsc ((m.enum.filter fun t => q != t.1).map
        fun p => (ws.getD p.1 [], cos_similarity p.2 (m.getD q [])))).reverse) := by
  have hqm : q < m.length := by omega
  rw [List.getD_eq_getElem _ _ hqm]
  simp only [most_similar, hq, List.getElem?_eq_getElem hqm]
  rw [simList_eq_map _ hlook _ fun p hp => by
    have := mem_enum_fst_lt (List.mem_filter.mp hp).1
    omega]
  rfl


theorem vocabIdx_getD {ws : List Word} (hnd : ws.Nodup) :
    ∀ {i : ℕ}, i < ws.length → vocabIdx ws (ws.getD i []) = i := by
  induction ws with
  | nil => intro i hi; simp at hi
  | cons u us ih =>
    intro i hi
    rw [List.nodup_cons] at hnd
    cases i with
    | zero => simp [vocabIdx]
    | succ k =>
      have hk : k < us.length := by simpa using hi
      have hne : u ≠ us.getD k [] := by
        intro hcon
        refine hnd.1 ?_
        rw [hcon, List.getD_eq_getElem _ _ hk]
        exact List.getElem_mem hk
      show vocabIdx (u :: us) ((u :: us).getD (k + 1) []) = k + 1
      have hgd : (u :: us).getD (k + 1) [] = us.getD k [] := rfl
      rw [hgd]
      unfold vocabIdx
      rw [if_neg hne, ih hnd.2 hk]

/-- C1 (amended): whenever the query is present with id `q < n`, the mappings
are consistent (`id_to_word` maps each `i < n` to the `i`-th vocabulary word,
the vocabulary has no duplicates) and the matrix has `n` rows, `most_similar`
returns the pairs sorted by descending score with ties broken by descending
(not ascending) original vocabulary id: the source sorts ascending with a
stable sort and then reverses, which reverses the relative order of ties. -/
theorem most_similar_pairs_sorted {query : Word} {wti : List (Word × ℕ)}
    {itw : List (ℕ × Word)} {m : List (List ℕ)} {ws : List Word} {q n : ℕ}
    (hws : ws.length = n) (hnd : ws.Nodup)
    (hlook : ∀ i, i < n → List.lookup i itw = some (ws.getD i []))
    (hq : List.lookup query wti = some q) (hqn : q < n) (hm : m.length = n) :
    ∃ l, most_similar query wti itw m = some l ∧ l.Pairwise (rankedDesc ws) := by
  refine ⟨_, most_similar_eq hlook hq hqn hm, ?_⟩
  rw [List.pairwise_reverse]
  have hLfst : (m.enum.filter fun t => q != t.1).Pairwise fun a b => a.1 < b.1 :=
    List.Pairwise.sublist (List.filter_sublist _) (enum_pairwise_fst m)
  have hmem : ∀ p ∈ (m.enum.filter fun t => q != t.1), p.1 < n := fun p hp => by
    have := mem_enum_fst_lt (List.mem_filter.mp hp).1
    omega
  have hM : (((m.enum.filter fun t => q != t.1)).map
      fun p => (ws.getD p.1 [], cos_similarity p.2 (m.getD q []))).Pairwise
      fun a b => vocabIdx ws a.1 < vocabIdx ws b.1 := by
    rw [List.pairwise_map]
    refine List.Pairwise.imp_of_mem ?_ hLfst
    intro p p' hp hp' hlt
    show vocabIdx ws (ws.getD p.1 []) < vocabIdx ws (ws.getD p'.1 [])
    rw [vocabIdx_getD hnd (by rw [hws]; exact hmem p hp),
      vocabIdx_getD hnd (by rw [hws]; exact hmem p' hp')]
    exact hlt
  have hsorted := sortAsc_pairwise (fun a => vocabIdx ws a.1) _ hM
  refine hsorted.imp ?_
  intro a b hab
  show rankedDesc ws b a
  unfold rankedDesc
  rcases hab with h1 | ⟨h1, h2⟩
  · exact Or.inl h1
  · exact Or.inr ⟨h1.symm, h2⟩

/-- C1 (witness): the amended statement applied to a concrete three-word
vocabulary and matrix. -/
theorem most_similar_pairs_sorted_witness :
    (([['a'], ['b'], ['c']] : List Word).length = 3 ∧
     ([['a'], ['b'], ['c']] : List Word).Nodup ∧
     (∀ i, i < 3 → List.lookup i [(0, ['a']), (1, ['b']), (2, ['c'])] =
       some (([['a'], ['b'], ['c']] : List Word).getD i [])) ∧
     List.lookup ['a'] [(['a'], 0), (['b'], 1), (['c'], 2)] = some 0 ∧
     0 < 3 ∧ ([[1, 0], [0, 1], [0, 1]] : List (List ℕ)).length = 3) ∧
    ∃ l, most_similar ['a'] [(['a'], 0), (['b'], 1), (['c'], 2)]
        [(0, ['a']), (1, ['b']), (2, ['c'])] [[1, 0], [0, 1], [0, 1]] = some l ∧
      l.Pairwise (rankedDesc [['a'], ['b'], ['c']]) :=
  ⟨⟨by decide, by decide, by decide, by decide, by decide, by decide⟩,
    @most_similar_pairs_sorted ['a'] [(['a'], 0), (['b'], 1), (['c'], 2)]
      [(0, ['a']), (1, ['b']), (2, ['c'])] [[1, 0], [0, 1], [0, 1]]
      [['a'], ['b'], ['c']] 0 3
      (by decide) (by decide) (by decide) (by decide) (by decide) (by decide)⟩

/-- C1 (counterexample): on a three-word vocabulary whose rows 1 and 2 are
identical (hence tie for the same score against the query row), the result
lists word 2 (`"c"`) before word 1 (`"b"`): ties come out in descending id
order, contradicting the claimed ascending tie-break. -/
theorem most_similar_tie_order_cex :
    most_similar ['a'] [(['a'], 0), (['b'], 1), (['c'], 2)]
      [(0, ['a']), (1, ['b']), (2, ['c'])] [[1, 0], [0, 1], [0, 1]] =
      some [(['c'], cos_similarity [0, 1] [1, 0]),
        (['b'], cos_similarity [0, 1] [1, 0])] ∧
    ¬ ([(['c'], cos_similarity [0, 1] [1, 0]),
        (['b'], cos_similarity [0, 1] [1, 0])] : List (Word × ℝ)).Pairwise
      (rankedAsc [['a'], ['b'], ['c']]) := by
  constructor
  · rw [@most_similar_eq ['a'] [(['a'], 0), (['b'], 1), (['c'], 2)]
      [(0, ['a']), (1, ['b']), (2, ['c'])] [[1, 0], [0, 1], [0, 1]]
      [['a'], ['b'], ['c']] 0 3
      (by decide) (by decide) (by decide) (by decide)]
    have hM : ((([[1, 0], [0, 1], [0, 1]] : List (List ℕ)).enum.filter
        fun t => (0 : ℕ) != t.1).map
        fun p => (([['a'], ['b'], ['c']] : List Word).getD p.1 [],
          cos_similarity p.2 (([[1, 0], [0, 1], [0, 1]] : List (List ℕ)).getD 0 []))) =
        [(['b'], cos_similarity [0, 1] [1, 0]),
         (['c'], cos_similarity [0, 1] [1, 0])] := rfl
    rw [hM]
    have hs : sortAsc [(['b'], cos_similarity [0, 1] [1, 0]),
        (['c'], cos_similarity [0, 1] [1, 0])] =
        [(['b'], cos_similarity [0, 1] [1, 0]),
         (['c'], cos_similarity [0, 1] [1, 0])] := by
      show insertAsc (['c'], cos_similarity [0, 1] [1, 0])
        (insertAsc (['b'], cos_similarity [0, 1] [1, 0]) []) = _
      rw [show insertAsc (['b'], cos_similarity [0, 1] [1, 0]) [] =
        [(['b'], cos_similarity [0, 1] [1, 0])] from rfl]
      unfold insertAsc
      rw [if_neg (lt_irrefl _)]
      rfl
    rw [hs]
    rfl
  · intro h
    have h2 := (List.pairwise_cons.mp h).1 (['b'], cos_similarity [0, 1] [1, 0])
      (by simp)
    unfold rankedAsc at h2
    rcases h2 with h3 | ⟨_, h3⟩
    · exact lt_irrefl _ h3
    · rw [show vocabIdx [['a'], ['b'], ['c']] ['c'] = 2 by decide,
        show vocabIdx [['a'], ['b'], ['c']] ['b'] = 1 by decide] at h3
      omega

theorem countP_range_eq_one {n k : ℕ} {p : ℕ → Bool} (hk : k < n) (hpk : p k = true)
    (huniq : ∀ i, i < n → p i = true → i = k) : (List.range n).countP p = 1 := by
  rw [List.countP_eq_length_filter]
  have hnd : ((List.range n).filter p).Nodup := (List.nodup_range n).filter p
  have hmem : k ∈ (List.range n).filter p :=
    List.mem_filter.mpr ⟨List.mem_range.mpr hk, hpk⟩
  have hall : ∀ x ∈ (List.range n).filter p, x = k := by
    intro x hx
    have h2 := List.mem_filter.mp hx
    exact huniq x (List.mem_range.mp h2.1) h2.2
  cases hfl : (List.range n).filter p with
  | nil =>
    rw [hfl] at hmem
    cases hmem
  | cons a t =>
    rw [hfl] at hall hnd hmem
    have ha : a = k := hall a (by simp)
    cases t with
    | nil => rfl
    | cons b s =>
      have hb : b = k := hall b (by simp)
      rw [List.nodup_cons] at hnd
      have hmem2 : a ∈ b :: s := by
        rw [ha, hb]
        exact List.mem_cons_self k s
      exact absurd hmem2 hnd.1

theorem length_filter_ne_range {n q : ℕ} (hq : q < n) :
    ((List.range n).filter fun i => q != i).length = n - 1 := by
  induction n with
  | zero => omega
  | succ k ih =>
    rw [List.range_succ, List.filter_append, List.length_append]
    by_cases h : q = k
    · subst h
      have h1 : List.filter (fun i => q != i) [q] = [] := by simp
      have h2 : List.filter (fun i => q != i) (List.range q) = List.range q := by
        rw [List.filter_eq_self]
        intro a ha
        have h3 := List.mem_range.mp ha
        rw [bne_iff_ne]
        omega
      rw [h1, h2]
      simp
    · have hqk : q < k := by omega
      have h1 : List.filter (fun i => q != i) [k] = [k] := by
        simp only [List.filter_cons, List.filter_nil]
        rw [if_pos (by rw [bne_iff_ne]; exact h)]
      rw [h1, ih hqk]
      simp
      omega

/-- C9: with consistent mappings (each id `i < n` resolving to the `i`-th
vocabulary word, no duplicate words, the query being word `q`) and an
`n`-row matrix, `most_similar` never returns the query itself, returns
every other vocabulary word exactly once, and does not truncate: the
result has exactly `n - 1` entries. -/
theorem most_similar_excludes_query {query : Word} {wti : List (Word × ℕ)}
    {itw : List (ℕ × Word)} {m : List (List ℕ)} {ws : List Word} {q n : ℕ}
    (hws : ws.length = n) (hnd : ws.Nodup)
    (hlook : ∀ i, i < n → List.lookup i itw = some (ws.getD i []))
    (hq : List.lookup query wti = some q) (hqn : q < n)
    (hqw : ws.getD q [] = query) (hm : m.length = n) :
    ∃ l, most_similar query wti itw m = some l ∧
      query ∉ l.map Prod.fst ∧
      (∀ w ∈ ws, w ≠ query → (l.map Prod.fst).count w = 1) ∧
      l.length = n - 1 := by
  refine ⟨_, most_similar_eq hlook hq hqn hm, ?_⟩
  have hperm : ((sortAsc ((m.enum.filter fun t => q != t.1).map
      fun p => (ws.getD p.1 [], cos_similarity p.2 (m.getD q [])))).reverse).Perm
      ((m.enum.filter fun t => q != t.1).map
        fun p => (ws.getD p.1 [], cos_similarity p.2 (m.getD q []))) :=
    (List.reverse_perm _).trans (sortAsc_perm _)
  have hLfst : (m.enum.filter fun t => q != t.1).map Prod.fst =
      (List.range n).filter fun i => q != i := by
    have h1 : ((m.enum.map Prod.fst).filter fun i => q != i) =
        (m.enum.filter fun t => q != t.1).map Prod.fst :=
      List.filter_map Prod.fst m.enum
    rw [← h1, List.enum_map_fst, hm]
  have hcount : ∀ w : Word,
      (((sortAsc ((m.enum.filter fun t => q != t.1).map
        fun p => (ws.getD p.1 [], cos_similarity p.2 (m.getD q [])))).reverse).map
        Prod.fst).count w =
      (List.range n).countP fun i => (ws.getD i [] == w) && (q != i) := by
    intro w
    rw [List.count_eq_countP, (hperm.map Prod.fst).countP_eq, List.map_map]
    have h2 : ((m.enum.filter fun t => q != t.1).map
        (Prod.fst ∘ fun p : ℕ × List ℕ =>
          (ws.getD p.1 [], cos_similarity p.2 (m.getD q [])))).countP (fun x => x == w) =
        ((m.enum.filter fun t => q != t.1).map Prod.fst).countP
          fun i => ws.getD i [] == w := by
      rw [List.countP_map, List.countP_map]
      rfl
    rw [h2, hLfst, List.countP_filter]
  refine ⟨?_, ?_, ?_⟩
  · refine List.count_eq_zero.mp ?_
    rw [hcount query]
    refine List.countP_eq_zero.mpr ?_
    intro i hi hcon
    rw [Bool.and_eq_true, beq_iff_eq, bne_iff_ne] at hcon
    have hin : i < n := List.mem_range.mp hi
    have hglue : ws[i] = ws[q] := by
      rw [← List.getD_eq_getElem ws [] (by omega), ← List.getD_eq_getElem ws [] (by omega),
        hcon.1, hqw]
    exact hcon.2 ((hnd.getElem_inj_iff.mp hglue).symm)
  · intro w hw hwq
    rw [hcount w]
    obtain ⟨k, hk, hwk⟩ := List.mem_iff_getElem.mp hw
    have hkn : k < n := by omega
    refine countP_range_eq_one hkn ?_ ?_
    · rw [Bool.and_eq_true, beq_iff_eq, bne_iff_ne]
      refine ⟨by rw [List.getD_eq_getElem ws [] hk, hwk], ?_⟩
      intro hcon
      refine hwq ?_
      rw [← hwk, ← List.getD_eq_getElem ws [] hk, ← hcon]
      exact hqw
    · intro i hin hcon
      rw [Bool.and_eq_true, beq_iff_eq, bne_iff_ne] at hcon
      have hglue : ws[i] = ws[k] := by
        rw [← List.getD_eq_getElem ws [] (by omega), hcon.1, ← hwk]
      exact hnd.getElem_inj_iff.mp hglue
  · rw [List.length_reverse]
    have h3 := (sortAsc_perm ((m.enum.filter fun t => q != t.1).map
      fun p => (ws.getD p.1 [], cos_similarity p.2 (m.getD q [])))).length_eq
    rw [h3, List.length_map]
    have h4 : (m.enum.filter fun t => q != t.1).length =
        ((m.enum.filter fun t => q != t.1).map Prod.fst).length := by
      rw [List.length_map]
    rw [h4, hLfst, length_filter_ne_range hqn]

/-- C9 (witness): the statement applied to a concrete three-word vocabulary
and matrix. -/
theorem most_similar_excludes_query_witness :
    (([['a'], ['b'], ['c']] : List Word).length = 3 ∧
     ([['a'], ['b'], ['c']] : List Word).Nodup ∧
     (∀ i, i < 3 → List.lookup i [(0, ['a']), (1, ['b']), (2, ['c'])] =
       some (([['a'], ['b'], ['c']] : List Word).getD i [])) ∧
     List.lookup ['a'] [(['a'], 0), (['b'], 1), (['c'], 2)] = some 0 ∧
     0 < 3 ∧ ([['a'], ['b'], ['c']] : List Word).getD 0 [] = ['a'] ∧
     ([[1, 0], [0, 1], [0, 1]] : List (List ℕ)).length = 3) ∧
    ∃ l, most_similar ['a'] [(['a'], 0), (['b'], 1), (['c'], 2)]
        [(0, ['a']), (1, ['b']), (2, ['c'])] [[1, 0], [0, 1], [0, 1]] = some l ∧
      ['a'] ∉ l.map Prod.fst ∧
      (∀ w ∈ ([['a'], ['b'], ['c']] : List Word), w ≠ ['a'] →
        (l.map Prod.fst).count w = 1) ∧
      l.length = 3 - 1 :=
  ⟨⟨by decide, by decide, by decide, by decide, by decide, by decide, by decide⟩,
    @most_similar_excludes_query ['a'] [(['a'], 0), (['b'], 1), (['c'], 2)]
      [(0, ['a']), (1, ['b']), (2, ['c'])] [[1, 0], [0, 1], [0, 1]]
      [['a'], ['b'], ['c']] 0 3
      (by decide) (by decide) (by decide) (by decide) (by decide) (by decide) (by decide)⟩
